import Mathlib

/-!
# SmartFileOrganizer — verification of the core engine

A shallow embedding of the non-UI core of `src/main.py` (SmartFileOrganizer):
the extension classifier (`CATEGORY_MAP`, `get_category`), the filename
keyword heuristic (`guess_ai_category`), the scanner (`get_file_info`,
`scan_folder`), the organizer (`organize_files`), the exporter
(`export_reports`) and the query engine (`search_files`).

Modelling conventions:
* A filesystem path is a list of components (`List String`).  The Python
  `Path` values the program compares are absolute and normalized (they come
  from `Path.resolve()` / concatenation of resolved roots), so `Path`
  equality is component-list equality, `Path.parent` is `List.dropLast` and
  `Path.name` is the last component.  `resolve()` is the identity on those
  canonical paths (symlinks are outside the model).
* Python `str.lower()` is modelled as a character-wise map (`strLower`).
* The OS is modelled explicitly: a scan consumes the directory-walk trace
  (a list of `DirEntry`, each carrying the result the OS gave for
  `is_file()` and `stat()`; a `stat` result of `none` is the `OSError`
  case the spec discusses), and the organizer acts on an `FS` state (a
  list of files plus a list of directories).  An exception raised by a
  library call (`stat`, `mkdir`, `shutil.move`) is an `.error` result.
-/

/-- Python substring test `needle in hay`, on character lists:
`needle` occurs contiguously in `hay`. -/
def segEq : List Char → List Char → Bool
  | [], _ => true
  | _ :: _, [] => false
  | a :: as, b :: bs => if a = b then segEq as bs else false

/-- `listInfix n h` is true iff `n` occurs contiguously inside `h`. -/
def listInfix (n : List Char) : List Char → Bool
  | [] => n.isEmpty
  | c :: rest => segEq n (c :: rest) || listInfix n rest

/-- Python `kw in hay` for strings (substring containment). -/
def containsKw (hay kw : String) : Bool := listInfix kw.data hay.data

/-- Python `str.lower()`, modelled character-wise with `Char.toLower`. -/
def strLower (s : String) : String := ⟨s.data.map Char.toLower⟩

/-- Index of the last occurrence of `c` in the list, as in Python `rfind`. -/
def lastIdxOf (c : Char) : List Char → Option Nat
  | [] => none
  | a :: rest =>
    match lastIdxOf c rest with
    | some i => some (i + 1)
    | none => if a = c then some 0 else none

/-- `pathlib` stem/suffix split of a file name: the suffix is the part from
the last dot `name[i:]` when `0 < i < len(name) - 1`, else empty. -/
def splitName (name : String) : String × String :=
  match lastIdxOf '.' name.data with
  | some i =>
    if 0 < i ∧ i + 1 < name.data.length then (⟨name.data.take i⟩, ⟨name.data.drop i⟩)
    else (name, "")
  | none => (name, "")

/-- `PurePath.stem` of a file name. -/
def pathStem (name : String) : String := (splitName name).1

/-- `PurePath.suffix` of a file name. -/
def pathSuffix (name : String) : String := (splitName name).2

/-- The static category table of `src/main.py` (`CATEGORY_MAP`), an ordered
association list from category name to its recognized extensions. -/
def CATEGORY_MAP : List (String × List String) :=
  [("Images", [".jpg", ".jpeg", ".png", ".gif", ".bmp", ".tiff", ".webp", ".svg", ".heic"]),
   ("Videos", [".mp4", ".mkv", ".avi", ".mov", ".flv", ".wmv", ".webm"]),
   ("Audio", [".mp3", ".wav", ".aac", ".flac", ".m4a", ".ogg"]),
   ("Documents", [".doc", ".docx", ".txt", ".rtf", ".odt"]),
   ("PDFs", [".pdf"]),
   ("Spreadsheets", [".xls", ".xlsx", ".csv", ".ods"]),
   ("Presentations", [".ppt", ".pptx", ".odp"]),
   ("Archives", [".zip", ".rar", ".7z", ".tar", ".gz"]),
   ("Executables", [".exe", ".msi", ".bat", ".sh", ".apk"]),
   ("Code", [".py", ".java", ".cpp", ".c", ".js", ".php", ".html", ".css", ".ts", ".ipynb"])]

/-- First category of the table whose extension list contains `e`,
`"Others"` when none does (the `for`/`in` loop of `get_category`). -/
def findCat : List (String × List String) → String → String
  | [], _ => "Others"
  | (cat, exts) :: rest, e => if e ∈ exts then cat else findCat rest e

/-- `get_category` of `src/main.py`: lower-case the extension, return the
first matching category of `CATEGORY_MAP`, else `"Others"`. -/
def get_category (extension : String) : String := findCat CATEGORY_MAP (strLower extension)

/-- `guess_ai_category` of `src/main.py`: for a file already categorized as
`"Others"`, match the lower-cased file name against four fixed keyword
groups in order (Images, Videos, Documents, Audio); otherwise `""`. -/
def guess_ai_category (entryName : String) (base_category : String) : String :=
  if base_category ≠ "Others" then ""
  else
    let name := strLower entryName
    if ["img", "image", "photo", "camera", "screenshot", "snap"].any (fun k => containsKw name k) then "Images"
    else if ["video", "movie", "clip", "record"].any (fun k => containsKw name k) then "Videos"
    else if ["doc", "report", "assignment", "notes", "letter"].any (fun k => containsKw name k) then "Documents"
    else if ["music", "song", "audio", "track"].any (fun k => containsKw name k) then "Audio"
    else ""

/-- One metadata record of the in-memory index (the dict built by
`get_file_info`).  `modified_time` keeps the raw mtime seconds; the
`strftime` rendering (an injective library formatting at second precision)
is not modelled. -/
structure FileRecord where
  name : String
  relative_path : List String
  full_path : List String
  extension : String
  category : String
  ai_hint : String
  size_bytes : Nat
  modified_time : Nat
deriving DecidableEq, Repr

/-- The two reserved report file names excluded from every scan. -/
def reservedNames : List String := ["organized_index.csv", "organized_index.json"]

/-- Last component of a path (Python `Path.name`). -/
def fname (p : List String) : String := p.getLastD ""

/-- Parent directory of a path (Python `Path.parent`). -/
def parentPath (p : List String) : List String := p.dropLast

/-- One entry of the directory-walk trace handed to the scanner, carrying
the results the OS returned: the `is_file()` answer and the `stat()`
outcome (`none` models the raised `OSError` — permission error or the
file disappearing between the listing and the `stat` call). -/
structure DirEntry where
  path : List String
  is_file : Bool
  statd : Option (Nat × Nat)
deriving DecidableEq, Repr

/-- The record `get_file_info` builds for a statted file at `p` (the
classification and the dict literal of lines 80–98 of `src/main.py`). -/
def mkRec (root : List String) (p : List String) (size mtime : Nat) : FileRecord :=
  let ext := strLower (pathSuffix (fname p))
  let category := get_category ext
  { name := fname p
    relative_path := p.drop root.length
    full_path := p
    extension := if ext = "" then "(no extension)" else ext
    category := category
    ai_hint := guess_ai_category (fname p) category
    size_bytes := size
    modified_time := mtime }

/-- `get_file_info` of `src/main.py`: `none` for the two reserved report
names; otherwise classify by the lower-cased suffix, run the keyword
heuristic, and read size/mtime from `stat` — whose failure propagates
(`.error`), the function has no handler. -/
def get_file_info (root : List String) (entry : DirEntry) : Except String (Option FileRecord) :=
  if fname entry.path ∈ reservedNames then .ok none
  else
    match entry.statd with
    | none => .error "OSError"
    | some (size, mtime) => .ok (some (mkRec root entry.path size mtime))

/-- `scan_folder` of `src/main.py`, applied to the walk trace: for each
entry reported as a file, build its record via `get_file_info`; a raised
per-file error propagates and aborts the whole scan (there is no handler
in the source). -/
def scan_folder (root : List String) : List DirEntry → Except String (List FileRecord)
  | [] => .ok []
  | e :: rest =>
    if e.is_file then
      match get_file_info root e with
      | .error err => .error err
      | .ok none => scan_folder root rest
      | .ok (some info) =>
        match scan_folder root rest with
        | .error err => .error err
        | .ok l => .ok (info :: l)
    else scan_folder root rest

/-- Strip all leading dots, Python `str.lstrip(".")`. -/
def stripDots (s : String) : String := ⟨s.data.dropWhile (fun c => c = '.')⟩

/-- `search_files` of `src/main.py`: filter the index by the search type;
any other search type matches nothing. -/
def search_files (files_info : List FileRecord) (search_type query : String) : List FileRecord :=
  let query_lower := strLower query
  files_info.filter fun info =>
    if search_type = "name" then containsKw (strLower info.name) query_lower
    else if search_type = "extension" then stripDots query_lower = stripDots (strLower info.extension)
    else if search_type = "category" then
      (query_lower = strLower info.category || query_lower = strLower info.ai_hint)
    else false

/-- The four keyword groups of `guess_ai_category`, in the fixed priority
order in which the source tests them. -/
def kwGroups : List (String × List String) :=
  [("Images", ["img", "image", "photo", "camera", "screenshot", "snap"]),
   ("Videos", ["video", "movie", "clip", "record"]),
   ("Documents", ["doc", "report", "assignment", "notes", "letter"]),
   ("Audio", ["music", "song", "audio", "track"])]

/-- Spec-side restatement of the heuristic ("returns the first group whose
keyword set has any match; returns empty if none match"), for comparison
with the source's if-chain. -/
def aiHintSpec (entryName : String) : String :=
  match kwGroups.find? (fun g => g.2.any (fun k => containsKw (strLower entryName) k)) with
  | some g => g.1
  | none => ""

/-- Scan-time category of a file name: classifier applied to the
lower-cased suffix, exactly as `get_file_info` computes it. -/
def catOfName (n : String) : String := get_category (strLower (pathSuffix n))

/-- Contents of a file in the filesystem model: ordinary bytes (with the
stat data the scanner reads), or one of the two report artifacts the
exporter writes, carrying the serialized index symbolically. -/
inductive FPayload where
  | bytes (size mtime : Nat)
  | csvDoc (recs : List FileRecord)
  | jsonDoc (recs : List FileRecord)
deriving DecidableEq, Repr

/-- One file of the filesystem state. -/
structure FSFile where
  path : List String
  payload : FPayload
deriving DecidableEq, Repr

/-- The filesystem state the organizer and exporter act on: the regular
files and the directories.  (Directory nesting bookkeeping is not
tracked; the scan root and its ancestors exist by the caller's
precondition.) -/
structure FS where
  files : List FSFile
  dirs : List (List String)
deriving DecidableEq, Repr

/-- First file at path `p`, if any. -/
def findFile (p : List String) : List FSFile → Option FSFile
  | [] => none
  | f :: rest => if f.path = p then some f else findFile p rest

/-- Remove the first file at path `p`. -/
def removeFirstFile (p : List String) : List FSFile → List FSFile
  | [] => []
  | f :: rest => if f.path = p then rest else f :: removeFirstFile p rest

/-- Membership of a path in a path list. -/
def memPath (p : List String) : List (List String) → Bool
  | [] => false
  | q :: rest => if p = q then true else memPath p rest

/-- Python `Path.exists()`: a file or a directory is present at `p`. -/
def existsAt (fs : FS) (p : List String) : Bool :=
  (findFile p fs.files).isSome || memPath p fs.dirs

/-- Python `Path.mkdir(exist_ok=True)`: no-op when the directory exists,
`FileExistsError` (`none`) when a regular file occupies the path. -/
def mkdirExistOk (fs : FS) (p : List String) : Option FS :=
  if memPath p fs.dirs then some fs
  else if (findFile p fs.files).isSome then none
  else some { fs with dirs := fs.dirs ++ [p] }

/-- `shutil.move(src, dest)`: fails (`none`, a `FileNotFoundError`) when no
file is at `src`; otherwise renames it to `dest`, replacing any file
previously at `dest` (the overwrite semantics of `os.rename`). -/
def moveFile (fs : FS) (src dest : List String) : Option FS :=
  match findFile src fs.files with
  | none => none
  | some f =>
    some { fs with
           files := ((removeFirstFile src fs.files).filter
               (fun g => g.path ≠ dest)) ++ [{ f with path := dest }] }

/-- The collision name `f"{base} ({counter}){ext}"`. -/
def mkName (base : String) (counter : Nat) (ext : String) : String :=
  base ++ " (" ++ toString counter ++ ")" ++ ext

/-- The `while True` collision loop of `organize_files`: try counters
`counter, counter+1, …` until a name unused at `folder` is found.  The
source loop is unbounded; here it carries fuel, which the caller sets
high enough that exhaustion (`none`) is unreachable for any finite
filesystem. -/
def findFreeName (fs : FS) (folder : List String) (base ext : String) : Nat → Nat → Option String
  | 0, _ => none
  | fuel + 1, counter =>
    if existsAt fs (folder ++ [mkName base counter ext]) then
      findFreeName fs folder base ext fuel (counter + 1)
    else some (mkName base counter ext)

/-- Number of path entries in the state, a bound for the collision loop. -/
def fsSize (fs : FS) : Nat := fs.files.length + fs.dirs.length

/-- The per-record body of the organize loop (lines 133–156 of
`src/main.py`): ensure the category folder, skip when the source already
sits in it, otherwise resolve collisions against the live state and move.
A raised library error is reported as `some msg`. -/
def orgStep (root : List String) (info : FileRecord) (fs : FS) : FS × Option String :=
  let src := info.full_path
  let category_folder := root ++ [info.category]
  match mkdirExistOk fs category_folder with
  | none => (fs, some "FileExistsError")
  | some fs1 =>
    if parentPath src = category_folder then (fs1, none)
    else
      let destName := fname src
      if existsAt fs1 (category_folder ++ [destName]) then
        match findFreeName fs1 category_folder (pathStem destName) (pathSuffix destName)
            (fsSize fs1 + 1) 1 with
        | none => (fs1, some "collision loop exhausted")
        | some nn =>
          match moveFile fs1 src (category_folder ++ [nn]) with
          | none => (fs1, some "FileNotFoundError")
          | some fs2 => (fs2, none)
      else
        match moveFile fs1 src (category_folder ++ [destName]) with
        | none => (fs1, some "FileNotFoundError")
        | some fs2 => (fs2, none)

/-- The `for info in files_info` loop of `organize_files`: records in
index order; the first raised error propagates, ending the loop. -/
def moveLoop (root : List String) : List FileRecord → FS → FS × Option String
  | [], fs => (fs, none)
  | info :: rest, fs =>
    match orgStep root info fs with
    | (fs1, none) => moveLoop root rest fs1
    | (fs1, some e) => (fs1, some e)

/-- Insertion-ordered counting dict (`category_count` of the source). -/
def bumpCount : List (String × Nat) → String → List (String × Nat)
  | [], c => [(c, 1)]
  | (k, n) :: t, c => if k = c then (k, n + 1) :: t else (k, n) :: bumpCount t c

/-- Per-category counts of the index, in first-occurrence order. -/
def categoryCounts (files_info : List FileRecord) : List (String × Nat) :=
  files_info.foldl (fun acc info => bumpCount acc info.category) []

/-- Python `"\n".join`. -/
def joinLines : List String → String
  | [] => ""
  | [x] => x
  | x :: y :: rest => x ++ "\n" ++ joinLines (y :: rest)

/-- One summary line `f"  {cat}: {count} file(s)"`. -/
def countLine (c : String) (n : Nat) : String := "  " ++ c ++ ": " ++ toString n ++ " file(s)"

/-- `organize_files` of `src/main.py`: early return on an empty index;
otherwise compute the per-category summary, run the move loop, and
return the report — or let the first move error propagate (`.error`),
the partial state standing (completed moves are permanent). -/
def organize_files (root : List String) (files_info : List FileRecord) (fs : FS) :
    FS × Except String String :=
  if files_info.isEmpty then (fs, .ok "No files found to organize.")
  else
    let counts := categoryCounts files_info
    let result_lines := "Summary by category:" :: counts.map (fun p => countLine p.1 p.2)
    match moveLoop root files_info fs with
    | (fs1, some e) => (fs1, .error e)
    | (fs1, none) =>
      (fs1, .ok (joinLines (result_lines ++ ["\nFiles have been organized into category folders."])))

/-- Rendering of a path for the report message. -/
def pathString : List String → String
  | [] => ""
  | [x] => x
  | x :: y :: rest => x ++ "/" ++ pathString (y :: rest)

/-- Overwriting file write (`open(..., "w")`). -/
def writeFileAt (fs : FS) (p : List String) (d : FPayload) : FS :=
  { fs with files := fs.files.filter (fun f => f.path ≠ p) ++ [{ path := p, payload := d }] }

/-- `export_reports` of `src/main.py`: early return on an empty index;
otherwise (over)write the CSV and JSON artifacts at the root.  The
serializations (`csv.DictWriter`, `json.dump`) are carried symbolically
as the list of records they encode. -/
def export_reports (root : List String) (files_info : List FileRecord) (fs : FS) :
    FS × Except String String :=
  if files_info.isEmpty then (fs, .ok "No files to export.")
  else
    let csv_path := root ++ ["organized_index.csv"]
    let json_path := root ++ ["organized_index.json"]
    let fs1 := writeFileAt fs csv_path (.csvDoc files_info)
    let fs2 := writeFileAt fs1 json_path (.jsonDoc files_info)
    (fs2, .ok ("Reports created:\n  CSV : " ++ pathString csv_path
      ++ "\n  JSON: " ++ pathString json_path))

/-- `isPref r p`: `r` is a prefix of `p` (componentwise). -/
def isPref : List String → List String → Bool
  | [], _ => true
  | _ :: _, [] => false
  | a :: as, b :: bs => if a = b then isPref as bs else false

/-- `p` lies strictly below the directory `root`. -/
def strictUnder (root p : List String) : Bool :=
  isPref root p && decide (root.length < p.length)

/-- The stat data the OS reports for a file's payload. -/
def payloadStat : FPayload → Nat × Nat
  | .bytes s m => (s, m)
  | .csvDoc _ => (0, 0)
  | .jsonDoc _ => (0, 0)

/-- The recursive `os.walk` trace over a quiescent filesystem state: every
regular file strictly under the root, listed in state order, each entry
carrying consistent `is_file`/`stat` answers. -/
def walkEntries (root : List String) (fs : FS) : List DirEntry :=
  (fs.files.filter (fun f => strictUnder root f.path)).map
    (fun f => { path := f.path, is_file := true, statd := some (payloadStat f.payload) })

/-- The record the scanner produces for a walked file entry (`none` for
the reserved report names). -/
def entryRec (root : List String) (e : DirEntry) : Option FileRecord :=
  if fname e.path ∈ reservedNames then none
  else
    match e.statd with
    | none => none
    | some (size, mtime) => some (mkRec root e.path size mtime)

/-- The index a quiescent scan of state `fs` produces. -/
def walkRecs (root : List String) (fs : FS) : List FileRecord :=
  (walkEntries root fs).filterMap (entryRec root)

/-- The paths of the files of a state. -/
def pathsOf (fs : FS) : List (List String) := fs.files.map FSFile.path

/-- A file sits in its category folder: its parent directory is
`root/<category of its own name>` — the skip condition of the organize
loop, for a freshly scanned record. -/
def inPlace (root : List String) (f : FSFile) : Prop :=
  parentPath f.path = root ++ [catOfName (fname f.path)]

/-- Invariant of the organize loop: every file strictly under the root is
a reserved report file, or already organized into an existing category
directory, or still awaiting its record (its path among the pending
sources). -/
def orgInv (root : List String) (pending : List (List String)) (fs : FS) : Prop :=
  ∀ f ∈ fs.files, strictUnder root f.path = true →
    fname f.path ∈ reservedNames ∨
    (inPlace root f ∧ memPath (root ++ [catOfName (fname f.path)]) fs.dirs = true) ∨
    f.path ∈ pending

/-- A record whose `category` field is the classifier's verdict on its
own file name — true of every scan-produced record. -/
def goodRec (rec : FileRecord) : Prop :=
  rec.category = catOfName (fname rec.full_path)

/-- Scan records of the one-file tree. -/
def c4idx1 : List FileRecord := [mkRec ["r"] ["r", "a.txt"] 5 0]

/-- Re-scan records after organizing. -/
def c4idx2 : List FileRecord := [mkRec ["r"] ["r", "Documents", "a.txt"] 5 0]

/-- The first run's report. -/
def c4rep : String :=
  "Summary by category:\n  Documents: 1 file(s)\n\nFiles have been organized into category folders."

/-- Well-formedness of a record, as every scan-produced record satisfies:
the hint is populated only on `"Others"` records, the category is a table
category or `"Others"`, and the hint is one of the four group names or
empty. -/
def wellFormedRec (r : FileRecord) : Prop :=
  (r.category = "Others" ∨ r.ai_hint = "") ∧
  r.category ∈ "Others" :: CATEGORY_MAP.map Prod.fst ∧
  r.ai_hint ∈ ["", "Images", "Videos", "Documents", "Audio"]

instance (r : FileRecord) : Decidable (wellFormedRec r) := by
  unfold wellFormedRec
  infer_instance

/-! Concrete fixtures used by witnesses and counterexamples. -/

/-- A stale record (its file no longer exists) followed by a live one. -/
def c1bad : FileRecord := mkRec ["r"] ["r", "x", "b.txt"] 3 0

/-- A live record whose move would succeed. -/
def c1good : FileRecord := mkRec ["r"] ["r", "y", "g.txt"] 4 0

/-- State holding only `c1good`'s file. -/
def c1fs : FS := ⟨[⟨["r", "y", "g.txt"], .bytes 4 0⟩], [["r"]]⟩

/-- State after the failing run: the category folder was created, the
good file was never moved, and the error propagated. -/
def c1fsAfter : FS := ⟨[⟨["r", "y", "g.txt"], .bytes 4 0⟩], [["r"], ["r", "Documents"]]⟩

/-- A healthy walk entry. -/
def c2ok : DirEntry := ⟨["r", "ok.txt"], true, some (1, 1)⟩

/-- A walk entry whose `stat` raises (file vanished after the listing). -/
def c2ghost : DirEntry := ⟨["r", "ghost.txt"], true, none⟩

/-- Two same-named files of the same category, in different folders. -/
def c5fs : FS := ⟨[⟨["r", "x", "a.txt"], .bytes 1 1⟩, ⟨["r", "y", "a.txt"], .bytes 2 2⟩], [["r"]]⟩

/-- Their scan records. -/
def c5recs : List FileRecord := [mkRec ["r"] ["r", "x", "a.txt"] 1 1, mkRec ["r"] ["r", "y", "a.txt"] 2 2]

/-- Result: the second file lands beside the first under the `" (1)"` name. -/
def c5fsAfter : FS :=
  ⟨[⟨["r", "Documents", "a.txt"], .bytes 1 1⟩, ⟨["r", "Documents", "a (1).txt"], .bytes 2 2⟩],
   [["r"], ["r", "Documents"]]⟩

/-- The report of the collision run. -/
def c5rep : String :=
  "Summary by category:\n  Documents: 2 file(s)\n\nFiles have been organized into category folders."

/-- A destination folder already holding `a.txt` and `a (1).txt`. -/
def c5wfs : FS :=
  ⟨[⟨["r", "Documents", "a.txt"], .bytes 1 0⟩, ⟨["r", "Documents", "a (1).txt"], .bytes 2 0⟩],
   [["r"], ["r", "Documents"]]⟩

/-- One plain file under the root. -/
def c4fs : FS := ⟨[⟨["r", "a.txt"], .bytes 5 0⟩], [["r"]]⟩

/-- The state after organizing `c4fs`. -/
def c4fsAfter : FS := ⟨[⟨["r", "Documents", "a.txt"], .bytes 5 0⟩], [["r"], ["r", "Documents"]]⟩

/-- An `"Images"` record. -/
def c6img : FileRecord := mkRec ["r"] ["r", "pic.jpg"] 1 0

/-- An `"Others"` record whose hint is `"Images"` (keyword `photo`). -/
def c6oth : FileRecord := mkRec ["r"] ["r", "photo1.xyz"] 2 0

/-- A `"Documents"` record. -/
def c6doc : FileRecord := mkRec ["r"] ["r", "a.txt"] 3 0

/-- A three-record index. -/
def c6idx : List FileRecord := [c6img, c6oth, c6doc]

/-- A healthy walk entry for the scanner. -/
def c9entry : DirEntry := ⟨["r", "a.txt"], true, some (5, 0)⟩

/-- A record for the unknown-search-type witness. -/
def c10rec : FileRecord := mkRec ["r"] ["r", "z.txt"] 1 0

/-- A state with no files under the root: an empty directory. -/
def c3emptyfs : FS := ⟨[], [["r"]]⟩

/-! ## Generic helper lemmas -/

theorem findCat_of_mem (m : List (String × List String))
    (hdis : m.Pairwise (fun p q => ∀ s ∈ p.2, s ∉ q.2)) (cat : String) (exts : List String)
    (hmem : (cat, exts) ∈ m) (s : String) (hs : s ∈ exts) : findCat m s = cat := by
  induction m with
  | nil => cases hmem
  | cons hd tl ih =>
    obtain ⟨c, ex⟩ := hd
    rcases List.pairwise_cons.mp hdis with ⟨hhd, htl⟩
    rcases List.mem_cons.mp hmem with heq | hmem2
    · obtain ⟨rfl, rfl⟩ := Prod.mk.injEq .. ▸ heq
      · simpa [findCat] using fun hns => absurd hs hns
    · show findCat ((c, ex) :: tl) s = cat
      unfold findCat
      have hnot : s ∉ ex := fun hin => hhd (cat, exts) hmem2 s hin hs
      rw [if_neg hnot]
      exact ih htl hmem2

theorem findCat_not_mem (m : List (String × List String)) (s : String)
    (h : ∀ p ∈ m, s ∉ p.2) : findCat m s = "Others" := by
  induction m with
  | nil => rfl
  | cons hd tl ih =>
    obtain ⟨c, ex⟩ := hd
    unfold findCat
    rw [if_neg (h (c, ex) (List.mem_cons_self _ _))]
    exact ih fun p hp => h p (List.mem_cons_of_mem _ hp)

theorem findCat_mem_names (m : List (String × List String)) (s : String) :
    findCat m s ∈ "Others" :: m.map Prod.fst := by
  induction m with
  | nil => simp [findCat]
  | cons hd tl ih =>
    obtain ⟨c, ex⟩ := hd
    unfold findCat
    by_cases hin : s ∈ ex
    · simp [hin]
    · rw [if_neg hin]
      rcases List.mem_cons.mp ih with h | h
      · simp [h]
      · simp [h]

theorem CATEGORY_MAP_disjoint : CATEGORY_MAP.Pairwise (fun p q => ∀ s ∈ p.2, s ∉ q.2) := by
  decide

theorem guess_not_others (n b : String) (h : b ≠ "Others") : guess_ai_category n b = "" := by
  unfold guess_ai_category
  rw [if_pos h]

theorem guess_mem_names (n b : String) :
    guess_ai_category n b ∈ ["", "Images", "Videos", "Documents", "Audio"] := by
  unfold guess_ai_category
  split
  · simp
  · dsimp only
    split
    · simp
    · split
      · simp
      · split
        · simp
        · split <;> simp

theorem mkRec_category (root p : List String) (s m : Nat) :
    (mkRec root p s m).category = catOfName (fname p) := rfl

theorem mkRec_ai_hint (root p : List String) (s m : Nat) :
    (mkRec root p s m).ai_hint = guess_ai_category (fname p) (catOfName (fname p)) := rfl

theorem mkRec_full_path (root p : List String) (s m : Nat) :
    (mkRec root p s m).full_path = p := rfl

theorem scan_mem_shape (root : List String) (es : List DirEntry) (idx : List FileRecord)
    (h : scan_folder root es = .ok idx) :
    ∀ rec ∈ idx, ∃ e ∈ es, ∃ s m, e.is_file = true ∧ fname e.path ∉ reservedNames ∧
      e.statd = some (s, m) ∧ rec = mkRec root e.path s m := by
  induction es generalizing idx with
  | nil =>
    intro rec hrec
    unfold scan_folder at h
    cases h
    cases hrec
  | cons e rest ih =>
    intro rec hrec
    unfold scan_folder at h
    by_cases hf : e.is_file = true
    · rw [if_pos hf] at h
      unfold get_file_info at h
      by_cases hres : fname e.path ∈ reservedNames
      · rw [if_pos hres] at h
        obtain ⟨e', he', rest'⟩ := ih idx h rec hrec
        exact ⟨e', List.mem_cons_of_mem _ he', rest'⟩
      · rw [if_neg hres] at h
        cases hst : e.statd with
        | none => rw [hst] at h; cases h
        | some sm =>
          obtain ⟨s, m⟩ := sm
          rw [hst] at h
          cases hrest : scan_folder root rest with
          | error err => rw [hrest] at h; cases h
          | ok l =>
            rw [hrest] at h
            cases h
            rcases List.mem_cons.mp hrec with rfl | hmem
            · exact ⟨e, List.mem_cons_self _ _, s, m, hf, hres, hst, rfl⟩
            · obtain ⟨e', he', rest'⟩ := ih l hrest rec hmem
              exact ⟨e', List.mem_cons_of_mem _ he', rest'⟩
    · rw [if_neg hf] at h
      obtain ⟨e', he', rest'⟩ := ih idx h rec hrec
      exact ⟨e', List.mem_cons_of_mem _ he', rest'⟩

theorem scan_records_wellFormed (root : List String) (es : List DirEntry)
    (idx : List FileRecord) (h : scan_folder root es = .ok idx) :
    ∀ rec ∈ idx, wellFormedRec rec := by
  intro rec hrec
  obtain ⟨e, _, s, m, _, _, _, rfl⟩ := scan_mem_shape root es idx h rec hrec
  refine ⟨?_, ?_, ?_⟩
  · by_cases hc : catOfName (fname e.path) = "Others"
    · exact Or.inl (by rw [mkRec_category, hc])
    · exact Or.inr (by rw [mkRec_ai_hint]; exact guess_not_others _ _ hc)
  · rw [mkRec_category]
    exact findCat_mem_names CATEGORY_MAP _
  · rw [mkRec_ai_hint]
    exact guess_mem_names _ _

/-! ## Claim theorems: classifier and query engine -/

/-- C7: every extension whose lower-cased form is declared in the category
table is mapped to its declared category (first match in declaration
order); an undeclared extension is mapped to `"Others"`; the lookup is
total over strings and case-insensitive (it depends only on the
lower-cased extension). -/
theorem get_category_table_correct :
    (∀ cat exts, (cat, exts) ∈ CATEGORY_MAP → ∀ e : String, strLower e ∈ exts →
      get_category e = cat)
  ∧ (∀ e : String, (∀ p ∈ CATEGORY_MAP, strLower e ∉ p.2) → get_category e = "Others")
  ∧ (∀ e₁ e₂ : String, strLower e₁ = strLower e₂ → get_category e₁ = get_category e₂) := by
  refine ⟨?_, ?_, ?_⟩
  · intro cat exts hm e he
    exact findCat_of_mem _ CATEGORY_MAP_disjoint cat exts hm _ he
  · intro e he
    exact findCat_not_mem _ _ he
  · intro e₁ e₂ h
    unfold get_category
    rw [h]

/-- Witness for C7 at concrete inputs. -/
theorem get_category_table_correct_witness :
    get_category ".JPG" = "Images" ∧ get_category ".xyz" = "Others" :=
  ⟨get_category_table_correct.1 "Images"
      [".jpg", ".jpeg", ".png", ".gif", ".bmp", ".tiff", ".webp", ".svg", ".heic"]
      (by decide) ".JPG" (by decide),
   get_category_table_correct.2.1 ".xyz" (by decide)⟩

/-- C9: in every scan-produced index, a record whose category is not
`"Others"` carries an empty `ai_hint`. -/
theorem scan_ai_hint_only_others (root : List String) (es : List DirEntry)
    (idx : List FileRecord) (h : scan_folder root es = .ok idx) :
    ∀ rec ∈ idx, rec.category ≠ "Others" → rec.ai_hint = "" := by
  intro rec hrec hcat
  obtain ⟨e, _, s, m, _, _, _, rfl⟩ := scan_mem_shape root es idx h rec hrec
  rw [mkRec_ai_hint]
  rw [mkRec_category] at hcat
  exact guess_not_others _ _ hcat

/-- Witness for C9: a concrete scan, with a non-`"Others"` record. -/
theorem scan_ai_hint_only_others_witness :
    (mkRec ["r"] ["r", "a.txt"] 5 0).ai_hint = "" :=
  scan_ai_hint_only_others ["r"] [c9entry] [mkRec ["r"] ["r", "a.txt"] 5 0] rfl
    (mkRec ["r"] ["r", "a.txt"] 5 0) (List.mem_singleton.mpr rfl) (by decide)

/-- C10: `search_files` with a search type other than `"name"`,
`"extension"` or `"category"` matches nothing: it returns the empty list
for every index and query. -/
theorem search_unknown_type_empty (files_info : List FileRecord) (search_type query : String)
    (h1 : search_type ≠ "name") (h2 : search_type ≠ "extension")
    (h3 : search_type ≠ "category") : search_files files_info search_type query = [] := by
  unfold search_files
  simp only [if_neg h1, if_neg h2, if_neg h3]
  simp

/-- Witness for C10 at a concrete index and search type. -/
theorem search_unknown_type_empty_witness : search_files [c10rec] "size" "9" = [] :=
  search_unknown_type_empty [c10rec] "size" "9" (by decide) (by decide) (by decide)

/-- C8: on an `"Others"` file, the keyword chain of `guess_ai_category`
is exactly "first keyword group with a case-insensitive substring match,
in the fixed priority order Images, Videos, Documents, Audio; empty when
none matches". -/
theorem aiHint_chain_eq_spec (n : String) : guess_ai_category n "Others" = aiHintSpec n := by
  unfold guess_ai_category aiHintSpec kwGroups
  simp only [List.find?]
  cases h1 : List.any ["img", "image", "photo", "camera", "screenshot", "snap"]
      (fun k => containsKw (strLower n) k) <;>
    cases h2 : List.any ["video", "movie", "clip", "record"]
        (fun k => containsKw (strLower n) k) <;>
      cases h3 : List.any ["doc", "report", "assignment", "notes", "letter"]
          (fun k => containsKw (strLower n) k) <;>
        cases h4 : List.any ["music", "song", "audio", "track"]
            (fun k => containsKw (strLower n) k) <;>
          simp [h1, h2, h3, h4]

/-- C6: category search returns exactly the records whose category or
hint equals the query case-insensitively, as a subsequence of the index
(order preserved); on well-formed records, searching `"Images"` returns
exactly the `"Images"` records plus the `"Others"` records whose hint is
`"Images"`. -/
theorem search_category_matches (index : List FileRecord)
    (hwf : ∀ r ∈ index, wellFormedRec r) :
    (∀ q, search_files index "category" q =
      index.filter (fun r => decide (strLower q = strLower r.category)
        || decide (strLower q = strLower r.ai_hint)))
  ∧ (∀ q, List.Sublist (search_files index "category" q) index)
  ∧ search_files index "category" "Images" =
      index.filter (fun r => decide (r.category = "Images")
        || (decide (r.category = "Others") && decide (r.ai_hint = "Images"))) := by
  have hmain : ∀ q, search_files index "category" q =
      index.filter (fun r => decide (strLower q = strLower r.category)
        || decide (strLower q = strLower r.ai_hint)) := by
    intro q
    unfold search_files
    simp only [if_neg (show ¬("category" = "name") by decide),
      if_neg (show ¬("category" = "extension") by decide),
      if_pos (show ("category" = "category") from rfl)]
    simp
  refine ⟨hmain, fun q => hmain q ▸ List.filter_sublist index, ?_⟩
  rw [hmain "Images"]
  apply List.filter_congr
  intro r hr
  obtain ⟨hor, hc, ha⟩ := hwf r hr
  simp only [CATEGORY_MAP, List.map_cons, List.map_nil, List.mem_cons,
    List.mem_singleton, List.not_mem_nil, or_false] at hc ha
  rcases hor with hor | hor
  · rcases ha with ha | ha | ha | ha | ha <;> rw [hor, ha] <;> decide
  · rcases hc with hc | hc | hc | hc | hc | hc | hc | hc | hc | hc | hc <;>
      rw [hc, hor] <;> decide

/-- Witness for C6 on a concrete three-record index. -/
theorem search_category_matches_witness :
    search_files c6idx "category" "Images" = [c6img, c6oth] := by
  have h := search_category_matches c6idx (by decide)
  rw [h.2.2]
  decide

theorem scan_folder_cons_file (root : List String) (e : DirEntry) (rest : List DirEntry)
    (hf : e.is_file = true) :
    scan_folder root (e :: rest) =
      match get_file_info root e with
      | .error err => .error err
      | .ok none => scan_folder root rest
      | .ok (some info) =>
        match scan_folder root rest with
        | .error err => .error err
        | .ok l => .ok (info :: l) := by
  conv_lhs => rw [scan_folder]
  rw [if_pos hf]

theorem scan_folder_cons_skip (root : List String) (e : DirEntry) (rest : List DirEntry)
    (hf : ¬e.is_file = true) :
    scan_folder root (e :: rest) = scan_folder root rest := by
  conv_lhs => rw [scan_folder]
  rw [if_neg hf]

theorem scan_folder_append (root : List String) (es₁ es₂ : List DirEntry) :
    scan_folder root (es₁ ++ es₂) =
      match scan_folder root es₁ with
      | .error e => .error e
      | .ok l₁ =>
        match scan_folder root es₂ with
        | .error e => .error e
        | .ok l₂ => .ok (l₁ ++ l₂) := by
  induction es₁ with
  | nil =>
    show scan_folder root es₂ = _
    simp only [scan_folder]
    cases scan_folder root es₂ <;> rfl
  | cons e rest ih =>
    show scan_folder root (e :: (rest ++ es₂)) = _
    by_cases hf : e.is_file = true
    · cases hg : get_file_info root e with
      | error err => simp [scan_folder, hf, hg]
      | ok oinfo =>
        cases oinfo with
        | none => simp only [scan_folder, hf, if_true, hg]; exact ih
        | some info =>
          simp only [scan_folder, hf, if_true, hg]
          rw [ih]
          cases scan_folder root rest <;> cases scan_folder root es₂ <;> simp
    · rw [scan_folder_cons_skip root e (rest ++ es₂) hf,
        scan_folder_cons_skip root e rest hf]
      exact ih

/-- C2 amended: the scanner has no per-file error handler — a `stat`
failure on an entry that passed the `is_file` test aborts the whole scan
with the propagated `OSError`, regardless of what was scanned before or
remains after; entries whose `is_file` test fails and the reserved report
names are the only ones skipped; when every file entry can be statted the
scan succeeds. -/
theorem scan_stat_failure_aborts (root : List String) :
    (∀ es₁ l (e : DirEntry) es₂, scan_folder root es₁ = .ok l → e.is_file = true →
      fname e.path ∉ reservedNames → e.statd = none →
      scan_folder root (es₁ ++ e :: es₂) = .error "OSError")
  ∧ (∀ (e : DirEntry) es, e.is_file = false → scan_folder root (e :: es) = scan_folder root es)
  ∧ (∀ (e : DirEntry) es, fname e.path ∈ reservedNames →
      scan_folder root (e :: es) = scan_folder root es)
  ∧ (∀ es, (∀ e ∈ es, e.is_file = true → fname e.path ∉ reservedNames → e.statd ≠ none) →
      ∃ l, scan_folder root es = .ok l) := by
  refine ⟨?_, ?_, ?_, ?_⟩
  · intro es₁ l e es₂ h1 hf hres hst
    have hgfi : get_file_info root e = .error "OSError" := by
      unfold get_file_info
      rw [if_neg hres, hst]
    have hstep : scan_folder root (e :: es₂) = .error "OSError" := by
      rw [scan_folder_cons_file root e es₂ hf, hgfi]
    rw [scan_folder_append, h1, hstep]
  · intro e es hf
    exact scan_folder_cons_skip root e es (show ¬e.is_file = true by simp [hf])
  · intro e es hres
    by_cases hf : e.is_file = true
    · have hgfi : get_file_info root e = .ok none := by
        unfold get_file_info
        rw [if_pos hres]
      rw [scan_folder_cons_file root e es hf, hgfi]
    · exact scan_folder_cons_skip root e es hf
  · intro es hall
    induction es with
    | nil => exact ⟨[], rfl⟩
    | cons e rest ih =>
      obtain ⟨l, hl⟩ := ih fun e' he' => hall e' (List.mem_cons_of_mem _ he')
      by_cases hf : e.is_file = true
      · by_cases hres : fname e.path ∈ reservedNames
        · refine ⟨l, ?_⟩
          have hgfi : get_file_info root e = .ok none := by
            unfold get_file_info
            rw [if_pos hres]
          rw [scan_folder_cons_file root e rest hf, hgfi]
          exact hl
        · cases hst : e.statd with
          | none => exact absurd hst (hall e (List.mem_cons_self _ _) hf hres)
          | some sm =>
            obtain ⟨s, m⟩ := sm
            refine ⟨mkRec root e.path s m :: l, ?_⟩
            have hgfi : get_file_info root e = .ok (some (mkRec root e.path s m)) := by
              unfold get_file_info
              rw [if_neg hres, hst]
            rw [scan_folder_cons_file root e rest hf, hgfi, hl]
      · refine ⟨l, ?_⟩
        rw [scan_folder_cons_skip root e rest hf]
        exact hl

/-- Witness for C2's amended claim: a concrete prefix, ghost entry and
suffix. -/
theorem scan_stat_failure_aborts_witness :
    scan_folder ["r"] ([c2ok] ++ c2ghost :: [c2ok]) = .error "OSError" :=
  (scan_stat_failure_aborts ["r"]).1 [c2ok] [mkRec ["r"] ["r", "ok.txt"] 1 1] c2ghost [c2ok]
    rfl rfl (by decide) rfl

/-- C2 counterexample: the claim says a per-file stat failure never causes
the scan to fail, but one unstattable entry aborts this concrete scan
with an `OSError` instead of an index omitting the entry. -/
theorem scan_stat_failure_counterexample :
    scan_folder ["r"] [c2ok, c2ghost, c2ok] = .error "OSError" := rfl

theorem joinLines_cons (x : String) (l : List String) (h : l ≠ []) :
    joinLines (x :: l) = x ++ "\n" ++ joinLines l := by
  cases l with
  | nil => exact absurd rfl h
  | cons y rest => rfl

theorem organize_ok_rep_shape (root : List String) (recs : List FileRecord) (fs fs' : FS)
    (rep : String) (hne : recs ≠ []) (h : organize_files root recs fs = (fs', .ok rep)) :
    ∃ t, rep = "Summary by category:" ++ "\n" ++ t := by
  cases recs with
  | nil => exact absurd rfl hne
  | cons r rest =>
    unfold organize_files at h
    simp only [List.isEmpty_cons] at h
    rw [if_neg (by simp)] at h
    cases hml : moveLoop root (r :: rest) fs with
    | mk fs1 oe =>
      rw [hml] at h
      cases oe with
      | some e => cases h
      | none =>
        cases h
        exact ⟨joinLines (List.map (fun p => countLine p.1 p.2) (categoryCounts (r :: rest))
          ++ ["\nFiles have been organized into category folders."]),
          joinLines_cons _ _ (by simp)⟩

theorem export_ok_rep_head (root : List String) (recs : List FileRecord) (fs fs' : FS)
    (rep : String) (hne : recs ≠ []) (h : export_reports root recs fs = (fs', .ok rep)) :
    rep.data.head? = some 'R' := by
  cases recs with
  | nil => exact absurd rfl hne
  | cons r rest =>
    unfold export_reports at h
    simp only [List.isEmpty_cons] at h
    rw [if_neg (by simp)] at h
    cases h
    rfl

/-- C3: scanning an empty directory yields the empty index; organize and
export on an empty index return the no-files rejection unchanged — no
move, no directory creation, no artifact write — and that rejection
message is never the report of a successful non-empty run. -/
theorem empty_index_rejected :
    (∀ root fs, (∀ f ∈ fs.files, strictUnder root f.path = false) →
      scan_folder root (walkEntries root fs) = .ok [])
  ∧ (∀ root fs, organize_files root [] fs = (fs, .ok "No files found to organize."))
  ∧ (∀ root fs, export_reports root [] fs = (fs, .ok "No files to export."))
  ∧ (∀ root recs fs fs' rep, recs ≠ [] → organize_files root recs fs = (fs', .ok rep) →
      rep ≠ "No files found to organize.")
  ∧ (∀ root recs fs fs' rep, recs ≠ [] → export_reports root recs fs = (fs', .ok rep) →
      rep ≠ "No files to export.") := by
  refine ⟨?_, fun root fs => rfl, fun root fs => rfl, ?_, ?_⟩
  · intro root fs hnone
    have hfil : fs.files.filter (fun f => strictUnder root f.path) = [] :=
      List.filter_eq_nil_iff.mpr fun f hf => by simp [hnone f hf]
    unfold walkEntries
    rw [hfil]
    rfl
  · intro root recs fs fs' rep hne h hEq
    obtain ⟨t, rfl⟩ := organize_ok_rep_shape root recs fs fs' rep hne h
    have hS : ("Summary by category:" ++ "\n" ++ t).data.head? = some 'S' := by
      rw [String.data_append, String.data_append]
      rfl
    rw [hEq] at hS
    exact absurd hS (by decide)
  · intro root recs fs fs' rep hne h hEq
    have hR := export_ok_rep_head root recs fs fs' rep hne h
    rw [hEq] at hR
    exact absurd hR (by decide)

/-- Witness for C3 at a concrete empty directory. -/
theorem empty_index_rejected_witness :
    scan_folder ["r"] (walkEntries ["r"] c3emptyfs) = .ok [] ∧
    organize_files ["r"] [] c3emptyfs = (c3emptyfs, .ok "No files found to organize.") ∧
    export_reports ["r"] [] c3emptyfs = (c3emptyfs, .ok "No files to export.") :=
  ⟨empty_index_rejected.1 ["r"] c3emptyfs (by decide),
   empty_index_rejected.2.1 ["r"] c3emptyfs,
   empty_index_rejected.2.2.1 ["r"] c3emptyfs⟩

/-! ## Organizer lemmas -/

theorem moveLoop_cons (root : List String) (info : FileRecord) (rest : List FileRecord)
    (fs : FS) :
    moveLoop root (info :: rest) fs =
      match orgStep root info fs with
      | (fs1, none) => moveLoop root rest fs1
      | (fs1, some e) => (fs1, some e) := by
  conv_lhs => rw [moveLoop]

theorem moveLoop_append (root : List String) (l₁ l₂ : List FileRecord) (fs : FS) :
    moveLoop root (l₁ ++ l₂) fs =
      match moveLoop root l₁ fs with
      | (fs1, none) => moveLoop root l₂ fs1
      | (fs1, some e) => (fs1, some e) := by
  induction l₁ generalizing fs with
  | nil => rfl
  | cons r rest ih =>
    rw [List.cons_append, moveLoop_cons, moveLoop_cons]
    cases horg : orgStep root r fs with
    | mk fs1 oe =>
      cases oe with
      | none => exact ih fs1
      | some e => rfl

theorem organize_files_loop (root : List String) (recs : List FileRecord) (fs : FS)
    (hne : recs ≠ []) :
    organize_files root recs fs =
      match moveLoop root recs fs with
      | (fs1, some e) => (fs1, .error e)
      | (fs1, none) => (fs1, .ok (joinLines (("Summary by category:" ::
          (categoryCounts recs).map (fun p => countLine p.1 p.2))
          ++ ["\nFiles have been organized into category folders."]))) := by
  cases recs with
  | nil => exact absurd rfl hne
  | cons r rest =>
    unfold organize_files
    rw [if_neg (by simp)]

/-- C1 amended: `organize_files` has no per-move handler — the first move
failure propagates out as the raised error with no report, the records
after the failing one are never attempted (the result is the same for any
tail), and the filesystem stands as it was at the failure, the earlier
completed moves persisting. -/
theorem organize_move_failure_aborts (root : List String) (pre : List FileRecord)
    (rec : FileRecord) (rest rest' : List FileRecord) (fs fsm fs' : FS) (e : String)
    (h0 : moveLoop root pre fs = (fsm, none)) (h : orgStep root rec fsm = (fs', some e)) :
    organize_files root (pre ++ rec :: rest) fs = (fs', .error e) ∧
    organize_files root (pre ++ rec :: rest) fs = organize_files root (pre ++ rec :: rest') fs := by
  have hloop : ∀ rst : List FileRecord, moveLoop root (pre ++ rec :: rst) fs = (fs', some e) := by
    intro rst
    rw [moveLoop_append, h0]
    show moveLoop root (rec :: rst) fsm = _
    rw [moveLoop_cons, h]
  constructor
  · rw [organize_files_loop root _ fs (by simp), hloop rest]
  · rw [organize_files_loop root _ fs (by simp), organize_files_loop root _ fs (by simp),
      hloop rest, hloop rest']

/-- Witness for C1's amended claim on the concrete stale-record run. -/
theorem organize_move_failure_aborts_witness :
    organize_files ["r"] ([] ++ c1bad :: [c1good]) c1fs = (c1fsAfter, .error "FileNotFoundError") :=
  (organize_move_failure_aborts ["r"] [] c1bad [c1good] [c1good] c1fs c1fs c1fsAfter
    "FileNotFoundError" rfl rfl).1

/-- C1 counterexample: the claim says a failed move is skipped, the batch
continues and a report is returned; on this concrete input the move
failure instead propagates as the error, and the second record's file is
never moved (the files are untouched, only the category directory was
created). -/
theorem organize_move_failure_counterexample :
    organize_files ["r"] [c1bad, c1good] c1fs = (c1fsAfter, .error "FileNotFoundError") ∧
    c1fsAfter.files = c1fs.files :=
  ⟨rfl, rfl⟩

theorem mkdir_files (fs : FS) (p : List String) (fs1 : FS)
    (h : mkdirExistOk fs p = some fs1) : fs1.files = fs.files := by
  unfold mkdirExistOk at h
  by_cases h1 : memPath p fs.dirs = true
  · rw [if_pos h1] at h
    cases h
    rfl
  · rw [if_neg h1] at h
    by_cases h2 : (findFile p fs.files).isSome = true
    · rw [if_pos h2] at h
      cases h
    · rw [if_neg h2] at h
      cases h
      rfl

theorem findFile_none_not_mem (p : List String) (l : List FSFile)
    (h : findFile p l = none) : ∀ g ∈ l, g.path ≠ p := by
  induction l with
  | nil => intro g hg; cases hg
  | cons f rest ih =>
    intro g hg
    unfold findFile at h
    by_cases hf : f.path = p
    · rw [if_pos hf] at h
      cases h
    · rw [if_neg hf] at h
      rcases List.mem_cons.mp hg with rfl | hg2
      · exact hf
      · exact ih h g hg2

theorem find_remove_perm (p : List String) (l : List FSFile) (f : FSFile)
    (h : findFile p l = some f) : l.Perm (f :: removeFirstFile p l) := by
  induction l with
  | nil => cases h
  | cons g rest ih =>
    unfold findFile at h
    unfold removeFirstFile
    by_cases hg : g.path = p
    · rw [if_pos hg] at h
      cases h
      rw [if_pos hg]
    · rw [if_neg hg] at h
      rw [if_neg hg]
      exact ((ih h).cons g).trans (List.Perm.swap f g _)

theorem removeFirst_mem (p : List String) (l : List FSFile) :
    ∀ g ∈ removeFirstFile p l, g ∈ l := by
  induction l with
  | nil => intro g hg; cases hg
  | cons f rest ih =>
    intro g hg
    unfold removeFirstFile at hg
    by_cases hf : f.path = p
    · rw [if_pos hf] at hg
      exact List.mem_cons_of_mem _ hg
    · rw [if_neg hf] at hg
      rcases List.mem_cons.mp hg with rfl | hg2
      · exact List.mem_cons_self _ _
      · exact List.mem_cons_of_mem _ (ih g hg2)

theorem existsAt_false_no_file (fs : FS) (p : List String)
    (h : existsAt fs p = false) : findFile p fs.files = none := by
  unfold existsAt at h
  rcases Bool.or_eq_false_iff.mp h with ⟨h1, _⟩
  cases hf : findFile p fs.files with
  | none => rfl
  | some f => rw [hf] at h1; cases h1

theorem moveFile_payload_perm (fs : FS) (src dest : List String) (fs2 : FS)
    (hmv : moveFile fs src dest = some fs2) (hfresh : existsAt fs dest = false) :
    (fs2.files.map FSFile.payload).Perm (fs.files.map FSFile.payload) := by
  unfold moveFile at hmv
  cases hfind : findFile src fs.files with
  | none => rw [hfind] at hmv; cases hmv
  | some f =>
    rw [hfind] at hmv
    cases hmv
    have hnone := existsAt_false_no_file fs dest hfresh
    have hfil : (removeFirstFile src fs.files).filter (fun (g : FSFile) => g.path ≠ dest)
        = removeFirstFile src fs.files := by
      apply List.filter_eq_self.mpr
      intro g hg
      have := findFile_none_not_mem dest fs.files hnone g (removeFirst_mem src fs.files g hg)
      simpa using this
    show (((removeFirstFile src fs.files).filter (fun (g : FSFile) => g.path ≠ dest)
        ++ [{ f with path := dest }]).map FSFile.payload).Perm _
    rw [hfil, List.map_append]
    have hperm := (find_remove_perm src fs.files f hfind).map FSFile.payload
    have : ((removeFirstFile src fs.files).map FSFile.payload ++ [f.payload]).Perm
        (f.payload :: (removeFirstFile src fs.files).map FSFile.payload) :=
      List.perm_append_singleton _ _
    exact (this.trans hperm.symm)

theorem findFreeName_spec (fs : FS) (folder : List String) (base ext : String) :
    ∀ fuel ctr nn, findFreeName fs folder base ext fuel ctr = some nn →
      existsAt fs (folder ++ [nn]) = false ∧
      ∃ k, nn = mkName base (ctr + k) ext ∧
        ∀ j, j < k → existsAt fs (folder ++ [mkName base (ctr + j) ext]) = true := by
  intro fuel
  induction fuel with
  | zero => intro ctr nn h; cases h
  | succ n ih =>
    intro ctr nn h
    unfold findFreeName at h
    by_cases hex : existsAt fs (folder ++ [mkName base ctr ext]) = true
    · rw [if_pos hex] at h
      obtain ⟨hfree, k, hk, hbelow⟩ := ih (ctr + 1) nn h
      refine ⟨hfree, k + 1, ?_, ?_⟩
      · rw [hk]
        congr 1
        omega
      · intro j hj
        cases j with
        | zero => simpa using hex
        | succ j' =>
          have h2 := hbelow j' (by omega)
          have harg : ctr + 1 + j' = ctr + (j' + 1) := by omega
          rw [harg] at h2
          exact h2
    · rw [if_neg hex] at h
      cases h
      exact ⟨by simpa using hex, 0, by simp, fun j hj => absurd hj (by omega)⟩

theorem orgStep_payload_perm (root : List String) (info : FileRecord) (fs : FS) :
    ((orgStep root info fs).1.files.map FSFile.payload).Perm (fs.files.map FSFile.payload) := by
  unfold orgStep
  dsimp only
  cases hmk : mkdirExistOk fs (root ++ [info.category]) with
  | none => exact List.Perm.refl _
  | some fs1 =>
    dsimp only
    have hfiles : fs1.files = fs.files := mkdir_files fs _ fs1 hmk
    by_cases hskip : parentPath info.full_path = root ++ [info.category]
    · rw [if_pos hskip]
      rw [hfiles]
    · rw [if_neg hskip]
      by_cases hex : existsAt fs1 (root ++ [info.category] ++ [fname info.full_path]) = true
      · rw [if_pos hex]
        cases hfn : findFreeName fs1 (root ++ [info.category]) (pathStem (fname info.full_path))
            (pathSuffix (fname info.full_path)) (fsSize fs1 + 1) 1 with
        | none =>
          dsimp only
          rw [hfiles]
        | some nn =>
          dsimp only
          have hfresh := (findFreeName_spec fs1 _ _ _ _ _ _ hfn).1
          cases hmv : moveFile fs1 info.full_path (root ++ [info.category] ++ [nn]) with
          | none =>
            dsimp only
            rw [hfiles]
          | some fs2 =>
            dsimp only
            have hp := moveFile_payload_perm fs1 _ _ fs2 hmv hfresh
            rw [hfiles] at hp
            exact hp
      · rw [if_neg hex]
        cases hmv : moveFile fs1 info.full_path
            (root ++ [info.category] ++ [fname info.full_path]) with
        | none =>
          dsimp only
          rw [hfiles]
        | some fs2 =>
          dsimp only
          have hp := moveFile_payload_perm fs1 _ _ fs2 hmv (by simpa using hex)
          rw [hfiles] at hp
          exact hp

theorem moveLoop_payload_perm (root : List String) (recs : List FileRecord) (fs : FS) :
    ((moveLoop root recs fs).1.files.map FSFile.payload).Perm (fs.files.map FSFile.payload) := by
  induction recs generalizing fs with
  | nil => exact List.Perm.refl _
  | cons r rest ih =>
    rw [moveLoop_cons]
    cases horg : orgStep root r fs with
    | mk fs1 oe =>
      have hstep := orgStep_payload_perm root r fs
      rw [horg] at hstep
      cases oe with
      | none => exact (ih fs1).trans hstep
      | some e => exact hstep

theorem organize_payload_perm (root : List String) (recs : List FileRecord) (fs : FS) :
    ((organize_files root recs fs).1.files.map FSFile.payload).Perm
      (fs.files.map FSFile.payload) := by
  cases recs with
  | nil => exact List.Perm.refl _
  | cons r rest =>
    rw [organize_files_loop root _ fs (by simp)]
    have := moveLoop_payload_perm root (r :: rest) fs
    cases hml : moveLoop root (r :: rest) fs with
    | mk fs1 oe =>
      rw [hml] at this
      cases oe with
      | none => exact this
      | some e => exact this

/-- C5: organize never destroys file contents — for every run (even a
failing one) the multiset of file payloads is preserved, because every
executed move targets a destination that is unused at that moment: the
collision loop hands back a name that is free in the live state, reached
by incrementing the counter past the occupied names; concretely, two
same-named files of the same category end up as `a.txt` and `a (1).txt`. -/
theorem organize_never_overwrites :
    (∀ root recs fs, ((organize_files root recs fs).1.files.map FSFile.payload).Perm
      (fs.files.map FSFile.payload))
  ∧ (∀ fs folder base ext fuel ctr nn, findFreeName fs folder base ext fuel ctr = some nn →
      existsAt fs (folder ++ [nn]) = false ∧
      ∃ k, nn = mkName base (ctr + k) ext ∧
        ∀ j, j < k → existsAt fs (folder ++ [mkName base (ctr + j) ext]) = true)
  ∧ organize_files ["r"] c5recs c5fs = (c5fsAfter, .ok c5rep) :=
  ⟨organize_payload_perm,
   fun fs folder base ext fuel ctr nn h => findFreeName_spec fs folder base ext fuel ctr nn h,
   rfl⟩

/-- Witness for C5: the collision loop applied at a folder already holding
`a.txt` and `a (1).txt` hands back the free name `a (2).txt`. -/
theorem organize_never_overwrites_witness :
    existsAt c5wfs (["r", "Documents"] ++ ["a (2).txt"]) = false ∧
    ∃ k, "a (2).txt" = mkName "a" (1 + k) ".txt" ∧
      ∀ j, j < k → existsAt c5wfs (["r", "Documents"] ++ [mkName "a" (1 + j) ".txt"]) = true :=
  organize_never_overwrites.2.1 c5wfs ["r", "Documents"] "a" ".txt" (fsSize c5wfs + 1) 1
    "a (2).txt" rfl

/-! ## File-name analysis: the collision rename preserves the category -/

theorem lastIdxOf_none_not_mem (c : Char) (cs : List Char) (h : lastIdxOf c cs = none) :
    c ∉ cs := by
  induction cs with
  | nil => simp
  | cons a rest ih =>
    unfold lastIdxOf at h
    cases hrest : lastIdxOf c rest with
    | some i' =>
      rw [hrest] at h
      cases h
    | none =>
      rw [hrest] at h
      by_cases hac : a = c
      · rw [if_pos hac] at h
        cases h
      · intro hm
        rcases List.mem_cons.mp hm with heq | hm2
        · exact hac heq.symm
        · exact ih hrest hm2

theorem lastIdxOf_eq_none (c : Char) (cs : List Char) (h : c ∉ cs) : lastIdxOf c cs = none := by
  induction cs with
  | nil => rfl
  | cons a rest ih =>
    unfold lastIdxOf
    rw [ih fun hm => h (List.mem_cons_of_mem _ hm)]
    rw [if_neg fun he => h (by rw [← he]; exact List.mem_cons_self _ _)]

theorem lastIdxOf_append_cons (c : Char) (A B : List Char) (h : c ∉ B) :
    lastIdxOf c (A ++ c :: B) = some A.length := by
  induction A with
  | nil =>
    show lastIdxOf c (c :: B) = some 0
    unfold lastIdxOf
    rw [lastIdxOf_eq_none c B h, if_pos rfl]
  | cons a A' ih =>
    show lastIdxOf c (a :: (A' ++ c :: B)) = some (A'.length + 1)
    unfold lastIdxOf
    rw [ih]

theorem lastIdxOf_spec (c : Char) (cs : List Char) (i : Nat) (h : lastIdxOf c cs = some i) :
    i < cs.length ∧ cs[i]? = some c ∧ ∀ j, i < j → cs[j]? ≠ some c := by
  induction cs generalizing i with
  | nil => cases h
  | cons a rest ih =>
    unfold lastIdxOf at h
    cases hrest : lastIdxOf c rest with
    | some i' =>
      rw [hrest] at h
      cases h
      obtain ⟨hlt, hget, hafter⟩ := ih i' hrest
      refine ⟨by simpa using Nat.succ_lt_succ hlt, by simpa using hget, ?_⟩
      intro j hj
      cases j with
      | zero => omega
      | succ j' => simpa using hafter j' (by omega)
    | none =>
      rw [hrest] at h
      by_cases hac : a = c
      · rw [if_pos hac] at h
        cases h
        have hnm := lastIdxOf_none_not_mem c rest hrest
        refine ⟨by simp, by simpa using hac, ?_⟩
        intro j hj
        cases j with
        | zero => omega
        | succ j' =>
          intro hje
          simp only [List.getElem?_cons_succ] at hje
          obtain ⟨hlt, heq⟩ := List.getElem?_eq_some.mp hje
          exact hnm (heq ▸ rest.getElem_mem hlt)
      · rw [if_neg hac] at h
        cases h

theorem splitName_stem_append (n : String) :
    (pathStem n).data ++ (pathSuffix n).data = n.data := by
  unfold pathStem pathSuffix splitName
  cases h : lastIdxOf '.' n.data with
  | none => simp
  | some i =>
    dsimp only
    by_cases hc : 0 < i ∧ i + 1 < n.data.length
    · rw [if_pos hc]
      exact List.take_append_drop i n.data
    · rw [if_neg hc]
      simp

theorem pathSuffix_empty_stem (n : String) (h : pathSuffix n = "") : pathStem n = n := by
  unfold pathStem splitName
  unfold pathSuffix splitName at h
  cases hl : lastIdxOf '.' n.data with
  | none => rfl
  | some i =>
    rw [hl] at h
    dsimp only at h ⊢
    by_cases hc : 0 < i ∧ i + 1 < n.data.length
    · rw [if_pos hc] at h
      exfalso
      have hd := congrArg String.data h
      have hlen := congrArg List.length hd
      rw [List.length_drop] at hlen
      have hlen2 : n.data.length - i = 0 := hlen.trans rfl
      omega
    · rw [if_neg hc]

theorem pathSuffix_shape (n : String) (h : pathSuffix n ≠ "") :
    ∃ i, lastIdxOf '.' n.data = some i ∧ 0 < i ∧ i + 1 < n.data.length ∧
      (pathSuffix n).data = n.data.drop i ∧
      n.data.drop i = '.' :: n.data.drop (i + 1) ∧
      n.data.drop (i + 1) ≠ [] ∧ '.' ∉ n.data.drop (i + 1) := by
  unfold pathSuffix splitName at h ⊢
  cases hl : lastIdxOf '.' n.data with
  | none =>
    rw [hl] at h
    exact absurd rfl h
  | some i =>
    rw [hl] at h
    dsimp only at h ⊢
    by_cases hc : 0 < i ∧ i + 1 < n.data.length
    · obtain ⟨hlt, hget, hafter⟩ := lastIdxOf_spec '.' n.data i hl
      obtain ⟨hlt2, hgete⟩ := List.getElem?_eq_some.mp hget
      refine ⟨i, rfl, hc.1, hc.2, by rw [if_pos hc], ?_, ?_, ?_⟩
      · rw [List.drop_eq_getElem_cons hlt2, hgete]
      · have hld : (n.data.drop (i + 1)).length = n.data.length - (i + 1) := List.length_drop _ _
        intro hnil
        rw [hnil] at hld
        simp only [List.length_nil] at hld
        omega
      · intro hm
        obtain ⟨j, hj, hje⟩ := List.mem_iff_getElem.mp hm
        have : n.data[i + 1 + j]? = some '.' := by
          rw [← List.getElem?_drop]
          simp [List.getElem?_eq_getElem hj, hje]
        exact hafter (i + 1 + j) (by omega) this
    · rw [if_neg hc] at h
      exact absurd rfl h

theorem pathSuffix_getLast (n : String) (h : pathSuffix n ≠ "") :
    (pathSuffix n).data.getLast? = n.data.getLast? := by
  obtain ⟨i, _, _, _, hdata, hdrop, htne, _⟩ := pathSuffix_shape n h
  rw [hdata]
  conv_rhs => rw [← List.take_append_drop i n.data]
  rw [List.getLast?_append_of_ne_nil _ (by rw [hdrop]; exact List.cons_ne_nil _ _)]

theorem noParenTable :
    ∀ p ∈ CATEGORY_MAP, ∀ e ∈ p.2, e.data.getLast? ≠ some ')' := by decide

theorem findCat_last_paren (s : String) (h : s.data.getLast? = some ')') :
    findCat CATEGORY_MAP s = "Others" := by
  apply findCat_not_mem
  intro p hp hmem
  exact noParenTable p hp s hmem h

theorem strLower_getLast (s : String) :
    (strLower s).data.getLast? = s.data.getLast?.map Char.toLower := by
  show (s.data.map Char.toLower).getLast? = _
  exact List.getLast?_map Char.toLower s.data

theorem catOfName_of_last_paren (m : String) (h : m.data.getLast? = some ')') :
    catOfName m = "Others" := by
  unfold catOfName get_category
  by_cases ht : pathSuffix m = ""
  · rw [ht]
    rfl
  · apply findCat_last_paren
    rw [strLower_getLast, strLower_getLast, pathSuffix_getLast m ht, h]
    rfl

theorem mkName_last_paren (base : String) (c : Nat) :
    (mkName base c "").data.getLast? = some ')' := by
  have hdata : (mkName base c "").data = (base ++ " (" ++ toString c).data ++ [')'] := by
    show (base ++ " (" ++ toString c ++ ")" ++ "").data = _
    rw [String.data_append, String.data_append]
    simp
  rw [hdata, List.getLast?_concat]

theorem stringExt (a b : String) (h : a.data = b.data) : a = b := by
  cases a
  cases b
  cases h
  rfl

theorem pathSuffix_data_of_lastIdx (m : String) (i : Nat)
    (hl : lastIdxOf '.' m.data = some i) (h0 : 0 < i) (hlen : i + 1 < m.data.length) :
    (pathSuffix m).data = m.data.drop i := by
  unfold pathSuffix splitName
  rw [hl]
  dsimp only
  rw [if_pos ⟨h0, hlen⟩]

theorem pathSuffix_mkName_of_ne (n : String) (c : Nat) (h : pathSuffix n ≠ "") :
    pathSuffix (mkName (pathStem n) c (pathSuffix n)) = pathSuffix n := by
  obtain ⟨i, _, _, _, hdata, hdrop, htne, hnm⟩ := pathSuffix_shape n h
  have hmdata : (mkName (pathStem n) c (pathSuffix n)).data =
      (pathStem n ++ " (" ++ toString c ++ ")").data ++ (pathSuffix n).data := by
    show (pathStem n ++ " (" ++ toString c ++ ")" ++ pathSuffix n).data = _
    rw [String.data_append]
  have hsufcons : (pathSuffix n).data = '.' :: n.data.drop (i + 1) := by rw [hdata, hdrop]
  have hP : (pathStem n ++ " (" ++ toString c ++ ")").data =
      (pathStem n ++ " (" ++ toString c).data ++ [')'] := by
    rw [String.data_append]
  have hlm : lastIdxOf '.' (mkName (pathStem n) c (pathSuffix n)).data =
      some ((pathStem n ++ " (" ++ toString c ++ ")").data).length := by
    rw [hmdata, hsufcons]
    exact lastIdxOf_append_cons '.' _ _ hnm
  have h0 : 0 < ((pathStem n ++ " (" ++ toString c ++ ")").data).length := by
    rw [hP]
    simp
  have hlen : ((pathStem n ++ " (" ++ toString c ++ ")").data).length + 1
      < (mkName (pathStem n) c (pathSuffix n)).data.length := by
    rw [hmdata, List.length_append, hsufcons]
    have := List.length_pos.mpr htne
    simp only [List.length_cons]
    omega
  apply stringExt
  rw [pathSuffix_data_of_lastIdx _ _ hlm h0 hlen, hmdata]
  exact List.drop_left _ _

theorem catOfName_mkName (n : String) (c : Nat) :
    catOfName (mkName (pathStem n) c (pathSuffix n)) = catOfName n := by
  by_cases h : pathSuffix n = ""
  · have hn : catOfName n = "Others" := by
      unfold catOfName
      rw [h]
      rfl
    rw [hn, h, pathSuffix_empty_stem n h]
    exact catOfName_of_last_paren _ (mkName_last_paren n c)
  · unfold catOfName
    rw [pathSuffix_mkName_of_ne n c h]

/-! ## Scan over a quiescent state -/

theorem scan_folder_all_ok (root : List String) (es : List DirEntry)
    (h : ∀ e ∈ es, e.is_file = true ∧ e.statd.isSome) :
    scan_folder root es = .ok (es.filterMap (entryRec root)) := by
  induction es with
  | nil => rfl
  | cons e rest ih =>
    obtain ⟨hf, hs⟩ := h e (List.mem_cons_self _ _)
    have ihr := ih fun e' he' => h e' (List.mem_cons_of_mem _ he')
    cases hst : e.statd with
    | none => rw [hst] at hs; cases hs
    | some sm =>
      obtain ⟨s, m⟩ := sm
      by_cases hres : fname e.path ∈ reservedNames
      · have hgfi : get_file_info root e = .ok none := by
          unfold get_file_info
          rw [if_pos hres]
        have hrec : entryRec root e = none := by
          unfold entryRec
          rw [if_pos hres]
        rw [scan_folder_cons_file root e rest hf, hgfi]
        simp only [List.filterMap_cons, hrec]
        exact ihr
      · have hgfi : get_file_info root e = .ok (some (mkRec root e.path s m)) := by
          unfold get_file_info
          rw [if_neg hres, hst]
        have hrec : entryRec root e = some (mkRec root e.path s m) := by
          unfold entryRec
          rw [if_neg hres, hst]
        rw [scan_folder_cons_file root e rest hf, hgfi, ihr]
        simp only [List.filterMap_cons, hrec]

theorem walkEntries_props (root : List String) (fs : FS) :
    ∀ e ∈ walkEntries root fs, e.is_file = true ∧ e.statd.isSome := by
  intro e he
  unfold walkEntries at he
  obtain ⟨f, _, rfl⟩ := List.mem_map.mp he
  exact ⟨rfl, rfl⟩

theorem scan_walk (root : List String) (fs : FS) :
    scan_folder root (walkEntries root fs) = .ok (walkRecs root fs) :=
  scan_folder_all_ok root _ (walkEntries_props root fs)

theorem walkRecs_mem (root : List String) (fs : FS) (rec : FileRecord) :
    rec ∈ walkRecs root fs ↔ ∃ f ∈ fs.files, strictUnder root f.path = true ∧
      fname f.path ∉ reservedNames ∧
      rec = mkRec root f.path (payloadStat f.payload).1 (payloadStat f.payload).2 := by
  unfold walkRecs walkEntries
  rw [List.mem_filterMap]
  constructor
  · rintro ⟨e, he, hrec⟩
    obtain ⟨f, hf, rfl⟩ := List.mem_map.mp he
    obtain ⟨hfmem, hunder⟩ := List.mem_filter.mp hf
    unfold entryRec at hrec
    by_cases hres : fname f.path ∈ reservedNames
    · rw [if_pos hres] at hrec
      cases hrec
    · rw [if_neg hres] at hrec
      cases hrec
      exact ⟨f, hfmem, hunder, hres, rfl⟩
  · rintro ⟨f, hfmem, hunder, hres, rfl⟩
    refine ⟨⟨f.path, true, some (payloadStat f.payload)⟩, ?_, ?_⟩
    · exact List.mem_map.mpr ⟨f, List.mem_filter.mpr ⟨hfmem, hunder⟩, rfl⟩
    · unfold entryRec
      rw [if_neg hres]

theorem mkRec_goodRec (root p : List String) (s m : Nat) : goodRec (mkRec root p s m) := rfl

/-! ## The organize loop establishes and preserves the organized state -/

theorem memPath_append_self (p : List String) (l : List (List String)) :
    memPath p (l ++ [p]) = true := by
  induction l with
  | nil => simp [memPath]
  | cons q rest ih =>
    rw [List.cons_append]
    by_cases hq : p = q
    · simp [memPath, hq]
    · simp only [memPath, if_neg hq]
      exact ih

theorem memPath_mono_append (q x : List String) (l : List (List String))
    (h : memPath q l = true) : memPath q (l ++ [x]) = true := by
  induction l with
  | nil => simp [memPath] at h
  | cons a rest ih =>
    rw [List.cons_append]
    by_cases ha : q = a
    · simp [memPath, ha]
    · simp only [memPath, if_neg ha] at h ⊢
      exact ih h

theorem mkdir_some_facts (fs : FS) (p : List String) (fs1 : FS)
    (h : mkdirExistOk fs p = some fs1) :
    fs1.files = fs.files ∧ memPath p fs1.dirs = true ∧
    ∀ q, memPath q fs.dirs = true → memPath q fs1.dirs = true := by
  unfold mkdirExistOk at h
  by_cases hd : memPath p fs.dirs = true
  · rw [if_pos hd] at h
    cases h
    exact ⟨rfl, hd, fun q hq => hq⟩
  · rw [if_neg hd] at h
    by_cases hf : (findFile p fs.files).isSome = true
    · rw [if_pos hf] at h
      cases h
    · rw [if_neg hf] at h
      cases h
      exact ⟨rfl, memPath_append_self p fs.dirs, fun q hq => memPath_mono_append q p fs.dirs hq⟩

theorem findFile_mem (p : List String) (l : List FSFile) (f : FSFile)
    (h : findFile p l = some f) : f ∈ l ∧ f.path = p := by
  induction l with
  | nil => cases h
  | cons g rest ih =>
    unfold findFile at h
    by_cases hg : g.path = p
    · rw [if_pos hg] at h
      cases h
      exact ⟨List.mem_cons_self _ _, hg⟩
    · rw [if_neg hg] at h
      obtain ⟨hm, hp⟩ := ih h
      exact ⟨List.mem_cons_of_mem _ hm, hp⟩

theorem moveFile_shape (fs : FS) (src dest : List String) (fs2 : FS)
    (h : moveFile fs src dest = some fs2) (hfresh : findFile dest fs.files = none) :
    ∃ f, findFile src fs.files = some f ∧
      fs2.files = removeFirstFile src fs.files ++ [{ f with path := dest }] ∧
      fs2.dirs = fs.dirs := by
  unfold moveFile at h
  cases hfind : findFile src fs.files with
  | none => rw [hfind] at h; cases h
  | some f =>
    rw [hfind] at h
    cases h
    have hfil : (removeFirstFile src fs.files).filter (fun (g : FSFile) => g.path ≠ dest)
        = removeFirstFile src fs.files := by
      apply List.filter_eq_self.mpr
      intro g hg
      have := findFile_none_not_mem dest fs.files hfresh g (removeFirst_mem src fs.files g hg)
      simpa using this
    exact ⟨f, rfl, by dsimp only; rw [hfil], rfl⟩

theorem removeFirst_paths_sublist (p : List String) (l : List FSFile) :
    List.Sublist ((removeFirstFile p l).map FSFile.path) (l.map FSFile.path) := by
  induction l with
  | nil => simp [removeFirstFile]
  | cons f rest ih =>
    unfold removeFirstFile
    by_cases hf : f.path = p
    · rw [if_pos hf]
      exact List.sublist_cons_self _ _
    · rw [if_neg hf]
      simpa using ih.cons₂ f.path

theorem removeFirst_no_path (p : List String) (l : List FSFile)
    (hnd : (l.map FSFile.path).Nodup) :
    ∀ g ∈ removeFirstFile p l, g.path ≠ p := by
  induction l with
  | nil => intro g hg; cases hg
  | cons f rest ih =>
    have hnd2 : (f.path ∉ rest.map FSFile.path) ∧ (rest.map FSFile.path).Nodup := by
      rw [← List.nodup_cons, ← List.map_cons]
      exact hnd
    obtain ⟨hhead, htail⟩ := hnd2
    intro g hg
    unfold removeFirstFile at hg
    by_cases hf : f.path = p
    · rw [if_pos hf] at hg
      intro hgp
      exact hhead (List.mem_map.mpr ⟨g, hg, by rw [hgp, hf]⟩)
    · rw [if_neg hf] at hg
      rcases List.mem_cons.mp hg with rfl | hg2
      · exact hf
      · exact ih htail g hg2

theorem move_nodup (fs : FS) (src dest : List String) (f : FSFile) (fs2 : FS)
    (hnd : (pathsOf fs).Nodup) (hfresh : findFile dest fs.files = none)
    (hshape : fs2.files = removeFirstFile src fs.files ++ [{ f with path := dest }]) :
    (pathsOf fs2).Nodup := by
  unfold pathsOf
  rw [hshape, List.map_append]
  rw [List.nodup_append]
  refine ⟨(removeFirst_paths_sublist src fs.files).nodup hnd, by simp, ?_⟩
  intro a ha
  simp only [List.map_cons, List.map_nil, List.mem_singleton]
  intro hadest
  obtain ⟨g, hg, hgp⟩ := List.mem_map.mp ha
  have hgmem := removeFirst_mem src fs.files g hg
  have := findFile_none_not_mem dest fs.files hfresh g hgmem
  rw [hgp] at this
  rw [hadest] at this
  simp at this

theorem move_preserves_inv (root : List String) (rec : FileRecord)
    (pending : List (List String)) (fs fsm fs2 : FS) (dname : String)
    (hfiles : fsm.files = fs.files)
    (hdir : memPath (root ++ [rec.category]) fsm.dirs = true)
    (hmono : ∀ q, memPath q fs.dirs = true → memPath q fsm.dirs = true)
    (hcat : catOfName dname = rec.category)
    (hfresh : existsAt fsm (root ++ [rec.category] ++ [dname]) = false)
    (hmv : moveFile fsm rec.full_path (root ++ [rec.category] ++ [dname]) = some fs2)
    (hnd : (pathsOf fs).Nodup)
    (hinv : orgInv root (rec.full_path :: pending) fs) :
    orgInv root pending fs2 ∧ (pathsOf fs2).Nodup := by
  have hfreshf : findFile (root ++ [rec.category] ++ [dname]) fsm.files = none :=
    existsAt_false_no_file fsm _ hfresh
  obtain ⟨f, hfind, hfs2files, hfs2dirs⟩ := moveFile_shape fsm _ _ fs2 hmv hfreshf
  have hndm : (pathsOf fsm).Nodup := by
    unfold pathsOf
    rw [hfiles]
    exact hnd
  constructor
  · intro g hg2 hunder
    rw [hfs2files] at hg2
    rcases List.mem_append.mp hg2 with hgrm | hgmv
    · have hgmem : g ∈ fs.files := by
        rw [← hfiles]
        exact removeFirst_mem _ _ g hgrm
      rcases hinv g hgmem hunder with hres | ⟨hip, hdr⟩ | hpend
      · exact Or.inl hres
      · refine Or.inr (Or.inl ⟨hip, ?_⟩)
        rw [hfs2dirs]
        exact hmono _ hdr
      · rcases List.mem_cons.mp hpend with hsrc | hpend2
        · exact absurd hsrc (removeFirst_no_path rec.full_path fsm.files hndm g hgrm)
        · exact Or.inr (Or.inr hpend2)
    · rw [List.mem_singleton.mp hgmv]
      refine Or.inr (Or.inl ?_)
      have hfname : fname ((root ++ [rec.category]) ++ [dname]) = dname := by
        unfold fname
        simp
      have hparent : parentPath ((root ++ [rec.category]) ++ [dname]) = root ++ [rec.category] := by
        unfold parentPath
        simp
      constructor
      · show parentPath ((root ++ [rec.category]) ++ [dname]) =
          root ++ [catOfName (fname ((root ++ [rec.category]) ++ [dname]))]
        rw [hparent, hfname, hcat]
      · show memPath (root ++ [catOfName (fname ((root ++ [rec.category]) ++ [dname]))])
          fs2.dirs = true
        rw [hfname, hcat, hfs2dirs]
        exact hdir
  · exact move_nodup fsm _ _ f fs2 hndm hfreshf hfs2files

theorem orgStep_inv (root : List String) (rec : FileRecord) (pending : List (List String))
    (fs fs1 : FS) (h : orgStep root rec fs = (fs1, none))
    (hg : goodRec rec) (hnd : (pathsOf fs).Nodup)
    (hinv : orgInv root (rec.full_path :: pending) fs) :
    orgInv root pending fs1 ∧ (pathsOf fs1).Nodup := by
  unfold orgStep at h
  dsimp only at h
  cases hmk : mkdirExistOk fs (root ++ [rec.category]) with
  | none =>
    rw [hmk] at h
    have := congrArg Prod.snd h
    simp at this
  | some fsm =>
    rw [hmk] at h
    dsimp only at h
    obtain ⟨hfiles, hdir, hmono⟩ := mkdir_some_facts fs _ fsm hmk
    by_cases hskip : parentPath rec.full_path = root ++ [rec.category]
    · rw [if_pos hskip] at h
      have hfs1 : fsm = fs1 := congrArg Prod.fst h
      rw [← hfs1]
      constructor
      · intro g hg2 hunder
        have hgfs : g ∈ fs.files := hfiles ▸ hg2
        rcases hinv g hgfs hunder with hres | ⟨hip, hdr⟩ | hpend
        · exact Or.inl hres
        · exact Or.inr (Or.inl ⟨hip, hmono _ hdr⟩)
        · rcases List.mem_cons.mp hpend with hsrc | hpend2
          · refine Or.inr (Or.inl ?_)
            constructor
            · show parentPath g.path = root ++ [catOfName (fname g.path)]
              rw [hsrc, hskip]
              have : catOfName (fname rec.full_path) = rec.category := hg.symm
              rw [this]
            · rw [hsrc]
              have : catOfName (fname rec.full_path) = rec.category := hg.symm
              rw [this]
              exact hdir
          · exact Or.inr (Or.inr hpend2)
      · unfold pathsOf
        rw [hfiles]
        exact hnd
    · rw [if_neg hskip] at h
      by_cases hex : existsAt fsm (root ++ [rec.category] ++ [fname rec.full_path]) = true
      · rw [if_pos hex] at h
        cases hfn : findFreeName fsm (root ++ [rec.category]) (pathStem (fname rec.full_path))
            (pathSuffix (fname rec.full_path)) (fsSize fsm + 1) 1 with
        | none =>
          rw [hfn] at h
          have := congrArg Prod.snd h
          simp at this
        | some nn =>
          rw [hfn] at h
          dsimp only at h
          cases hmv : moveFile fsm rec.full_path (root ++ [rec.category] ++ [nn]) with
          | none =>
            rw [hmv] at h
            have := congrArg Prod.snd h
            simp at this
          | some fs2 =>
            rw [hmv] at h
            have hfs1 : fs2 = fs1 := congrArg Prod.fst h
            rw [← hfs1]
            obtain ⟨hfr, k, hnn, _⟩ := findFreeName_spec fsm _ _ _ _ _ _ hfn
            have hcat : catOfName nn = rec.category := by
              rw [hnn, catOfName_mkName (fname rec.full_path) (1 + k)]
              exact hg.symm
            exact move_preserves_inv root rec pending fs fsm fs2 nn hfiles hdir hmono hcat
              hfr hmv hnd hinv
      · rw [if_neg hex] at h
        cases hmv : moveFile fsm rec.full_path
            (root ++ [rec.category] ++ [fname rec.full_path]) with
        | none =>
          rw [hmv] at h
          have := congrArg Prod.snd h
          simp at this
        | some fs2 =>
          rw [hmv] at h
          have hfs1 : fs2 = fs1 := congrArg Prod.fst h
          rw [← hfs1]
          have hcat : catOfName (fname rec.full_path) = rec.category := hg.symm
          exact move_preserves_inv root rec pending fs fsm fs2 (fname rec.full_path) hfiles
            hdir hmono hcat (by simpa using hex) hmv hnd hinv

theorem moveLoop_inv (root : List String) (recs : List FileRecord) :
    ∀ fs fs', moveLoop root recs fs = (fs', none) →
      (∀ rec ∈ recs, goodRec rec) → (pathsOf fs).Nodup →
      orgInv root (recs.map FileRecord.full_path) fs →
      orgInv root [] fs' ∧ (pathsOf fs').Nodup := by
  induction recs with
  | nil =>
    intro fs fs' h _ hnd hinv
    have hfs : fs = fs' := congrArg Prod.fst h
    rw [← hfs]
    exact ⟨hinv, hnd⟩
  | cons rec rest ih =>
    intro fs fs' h hgood hnd hinv
    rw [moveLoop_cons] at h
    cases horg : orgStep root rec fs with
    | mk fs1 oe =>
      rw [horg] at h
      cases oe with
      | some e =>
        dsimp only at h
        have := congrArg Prod.snd h
        simp at this
      | none =>
        dsimp only at h
        obtain ⟨hinv1, hnd1⟩ := orgStep_inv root rec (rest.map FileRecord.full_path) fs fs1
          horg (hgood rec (List.mem_cons_self _ _)) hnd hinv
        exact ih fs1 fs' h (fun r hr => hgood r (List.mem_cons_of_mem _ hr)) hnd1 hinv1

theorem orgStep_skip (root : List String) (rec : FileRecord) (fs : FS)
    (hdir : memPath (root ++ [rec.category]) fs.dirs = true)
    (hskip : parentPath rec.full_path = root ++ [rec.category]) :
    orgStep root rec fs = (fs, none) := by
  unfold orgStep
  dsimp only
  have hmk : mkdirExistOk fs (root ++ [rec.category]) = some fs := by
    unfold mkdirExistOk
    rw [if_pos hdir]
  rw [hmk]
  dsimp only
  rw [if_pos hskip]

theorem moveLoop_skip_all (root : List String) (recs : List FileRecord) (fs : FS)
    (h : ∀ rec ∈ recs, parentPath rec.full_path = root ++ [rec.category] ∧
      memPath (root ++ [rec.category]) fs.dirs = true) :
    moveLoop root recs fs = (fs, none) := by
  induction recs with
  | nil => rfl
  | cons rec rest ih =>
    rw [moveLoop_cons, orgStep_skip root rec fs (h rec (List.mem_cons_self _ _)).2
      (h rec (List.mem_cons_self _ _)).1]
    exact ih fun r hr => h r (List.mem_cons_of_mem _ hr)

/-- C4: organize is idempotent. After one successful organize run over a
freshly scanned index and a re-scan of the resulting tree, a second
organize run is a no-op: it returns the same filesystem state unchanged
(zero additional moves), because every re-scanned record's source parent
directory already equals its destination category folder, so the skip
condition fires for every record. -/
theorem organize_idempotent (root : List String) (fs₀ fs₁ : FS) (idx₁ idx₂ : List FileRecord)
    (rep₁ : String) (hnd : (pathsOf fs₀).Nodup)
    (h₁ : scan_folder root (walkEntries root fs₀) = .ok idx₁)
    (h₂ : organize_files root idx₁ fs₀ = (fs₁, .ok rep₁))
    (h₃ : scan_folder root (walkEntries root fs₁) = .ok idx₂) :
    (∃ rep₂, organize_files root idx₂ fs₁ = (fs₁, .ok rep₂)) ∧
    ∀ rec ∈ idx₂, parentPath rec.full_path = root ++ [rec.category] := by
  have hidx₁ : idx₁ = walkRecs root fs₀ := by
    have hw := scan_walk root fs₀
    rw [h₁] at hw
    exact Except.ok.inj hw
  have hidx₂ : idx₂ = walkRecs root fs₁ := by
    have hw := scan_walk root fs₁
    rw [h₃] at hw
    exact Except.ok.inj hw
  by_cases hempty : idx₁ = []
  · rw [hempty] at h₂
    have hpair : (fs₀, (Except.ok "No files found to organize." : Except String String))
        = (fs₁, .ok rep₁) := h₂
    have hfs : fs₀ = fs₁ := congrArg Prod.fst hpair
    have hidx₂nil : idx₂ = [] := by
      rw [hidx₂, ← hfs, ← hidx₁, hempty]
    constructor
    · exact ⟨"No files found to organize.", by rw [hidx₂nil]; rfl⟩
    · rw [hidx₂nil]
      intro rec hrec
      cases hrec
  · have hloop : moveLoop root idx₁ fs₀ = (fs₁, none) := by
      rw [organize_files_loop root idx₁ fs₀ hempty] at h₂
      cases hml : moveLoop root idx₁ fs₀ with
      | mk fsx oe =>
        rw [hml] at h₂
        cases oe with
        | some e =>
          dsimp only at h₂
          have := congrArg Prod.snd h₂
          simp at this
        | none =>
          dsimp only at h₂
          have hfst : fsx = fs₁ := congrArg Prod.fst h₂
          rw [hfst]
    have hgood : ∀ rec ∈ idx₁, goodRec rec := by
      intro rec hrec
      rw [hidx₁] at hrec
      obtain ⟨f, _, _, _, rfl⟩ := (walkRecs_mem root fs₀ rec).mp hrec
      exact mkRec_goodRec root f.path _ _
    have hinv₀ : orgInv root (idx₁.map FileRecord.full_path) fs₀ := by
      intro f hf hunder
      by_cases hres : fname f.path ∈ reservedNames
      · exact Or.inl hres
      · refine Or.inr (Or.inr ?_)
        apply List.mem_map.mpr
        refine ⟨mkRec root f.path (payloadStat f.payload).1 (payloadStat f.payload).2, ?_, rfl⟩
        rw [hidx₁]
        exact (walkRecs_mem root fs₀ _).mpr ⟨f, hf, hunder, hres, rfl⟩
    obtain ⟨hinv₁, hnd₁⟩ := moveLoop_inv root idx₁ fs₀ fs₁ hloop hgood hnd hinv₀
    have hA : ∀ rec ∈ idx₂, parentPath rec.full_path = root ++ [rec.category] ∧
        memPath (root ++ [rec.category]) fs₁.dirs = true := by
      intro rec hrec
      rw [hidx₂] at hrec
      obtain ⟨f, hfmem, hunder, hres, rfl⟩ := (walkRecs_mem root fs₁ rec).mp hrec
      rcases hinv₁ f hfmem hunder with hr | ⟨hip, hdr⟩ | hp
      · exact absurd hr hres
      · exact ⟨hip, hdr⟩
      · cases hp
    constructor
    · by_cases hempty₂ : idx₂ = []
      · exact ⟨"No files found to organize.", by rw [hempty₂]; rfl⟩
      · refine ⟨joinLines (("Summary by category:" ::
            (categoryCounts idx₂).map (fun p => countLine p.1 p.2))
            ++ ["\nFiles have been organized into category folders."]), ?_⟩
        rw [organize_files_loop root idx₂ fs₁ hempty₂, moveLoop_skip_all root idx₂ fs₁ hA]
    · intro rec hrec
      exact (hA rec hrec).1

/-- Witness for C4 on a concrete one-file tree: scan, organize, re-scan,
and the second organize run leaves the state unchanged. -/
theorem organize_idempotent_witness :
    ((∃ rep₂, organize_files ["r"] c4idx2 c4fsAfter = (c4fsAfter, .ok rep₂)) ∧
      ∀ rec ∈ c4idx2, parentPath rec.full_path = ["r"] ++ [rec.category]) :=
  organize_idempotent ["r"] c4fs c4fsAfter c4idx1 c4idx2 c4rep (by decide) rfl rfl rfl
